import Mathlib

/-!
Verification of the `linguinput` transcoding engine of lin-ssg: the symbol
table (`src/linguinput/src/table/mod.rs`, `raw.rs`), the push-based encoder
state machine (`src/linguinput/src/en.rs`), the grapheme decoder
(`src/linguinput/src/de.rs`), the one-shot entry points
(`src/linguinput/src/lib.rs`) and the linguistics transcription wrapper
(`src/packs/linguistics/src/transc.rs`).

Rust machine details are embedded as follows: Rust `char` is a Unicode
scalar value, matching Lean `Char`; Rust `String` is a sequence of such
scalars, matching Lean `String`; `str::len` / `char::len_utf8` are UTF-8
byte lengths, embedded as `byteLen` / `Char.utf8Size`; the two `HashMap`s
of the table are embedded as association lists with `List.lookup` (lookup
behaviour is all that the code observes); the `fmt::Write` output sink is
a `String` accumulator (writing into a `String` cannot fail, so the `Fmt`
error constructors are never produced, as in the Rust instantiations used
by `encode`/`decode`); fallible functions return `Except`.

Rust `&mut self` methods are embedded as functions returning the result
together with the (possibly mutated) receiver, so that mutations already
performed before an early error return stay observable.
-/

/-- UTF-8 byte length of a string: embeds Rust `String::len` / `str::len`. -/
def byteLen (s : String) : Nat := (s.data.map Char.utf8Size).sum

/-- Embeds `TableInitError` of `table/mod.rs`. -/
inductive TableInitError where
  | DuplicatedCode (code : String)
  | DuplicatedChar (ch : String)
deriving DecidableEq, Repr

/-- Embeds `Table` of `table/mod.rs`: the two hash maps become association
lists, queried with `List.lookup`. -/
structure Table where
  maxCodeLen : Nat
  codeToChar : List (String × String)
  charToCode : List (String × String)
deriving DecidableEq, Repr

/-- Embeds `Table::code_to_char`. -/
def Table.codeToCharGet (t : Table) (input : String) : Option String :=
  t.codeToChar.lookup input

/-- Embeds `Table::char_to_code`. -/
def Table.charToCodeGet (t : Table) (input : String) : Option String :=
  t.charToCode.lookup input

/-- Embeds the static list `TABLE` of `table/raw.rs`, in source order. -/
def rawTABLE : List (String × String) := [
  ("<", "⟨"),
  (">", "⟩"),
  ("_ 0", "₀"),
  ("_ 1", "₁"),
  ("_ 2", "₂"),
  ("_ 3", "₃"),
  ("_ 4", "₄"),
  ("_ 5", "₅"),
  ("_ 6", "₆"),
  ("_ 7", "₇"),
  ("_ 8", "₈"),
  ("_ 9", "₉"),
  ("^0", "⁰"),
  ("^1", "¹"),
  ("^2", "²"),
  ("^3", "³"),
  ("^4", "⁴"),
  ("^5", "⁵"),
  ("^6", "⁶"),
  ("^7", "⁷"),
  ("^8", "⁸"),
  ("^9", "⁹"),
  ("_ a", "ₐ"),
  ("_ e", "ₑ"),
  ("_ o", "ₒ"),
  ("_ h", "ₕ"),
  ("0", "∅"),
  ("t", "þ"),
  ("1", "˩"),
  ("2", "˨"),
  ("3", "˧"),
  ("4", "˦"),
  ("5", "˥"),
  ("a", "ɐ"),
  ("ae", "æ"),
  ("OE", "ɶ"),
  ("aa", "ɑ"),
  ("ao", "ɒ"),
  ("e", "ɛ"),
  ("oe", "œ"),
  ("eA", "ɜ"),
  ("oA", "ɞ"),
  ("A", "ʌ"),
  ("o", "ɔ"),
  ("ea", "ə"),
  ("oi", "ø"),
  ("ia", "ɘ"),
  ("io", "ɵ"),
  ("oa", "ɤ"),
  ("I", "ɪ"),
  ("Y", "ʏ"),
  ("U", "ʊ"),
  ("i", "ɨ"),
  ("u", "ʉ"),
  ("ua", "ɯ"),
  ("ph", "ɸ"),
  ("b", "β"),
  ("g", "ɣ"),
  ("d", "ð"),
  ("th", "θ"),
  ("lo", "ɫ"),
  ("r", "ɹ"),
  ("rd", "ɾ"),
  ("sr", "ʂ"),
  ("sc", "ʃ"),
  ("sj", "ɕ"),
  ("c", "ç"),
  ("j", "ʝ"),
  ("J", "ɟ"),
  ("x", "χ"),
  ("R", "ʀ"),
  ("Rh", "ʁ"),
  ("y", "ɥ"),
  (":", "ː"),
  (".", "ˑ"),
  ("#.", "\u032F"),
  ("#^.", "\u0311"),
  ("\x27", "ˈ"),
  (",", "ˌ"),
  ("^h", "ʰ"),
  ("^hv", "ʱ"),
  ("^=", "˭"),
  ("#:", "\u0308"),
  ("#^", "\u0361"),
  ("#_ ", "\u035C"),
  ("^w", "ʷ"),
  ("^j", "ʲ"),
  ("^-g", "ˠ"),
  ("^-y", "ᶣ")
]

/-- One iteration of the construction loop in `Table::load`
(`table/mod.rs` lines 49-67): update `max_code_len`, insert the code
(failing on an occupied entry with `DuplicatedCode`), then insert the
symbol (failing on an occupied entry with `DuplicatedChar`). -/
def buildStep (t : Table) (p : String × String) : Except TableInitError Table :=
  let t1 : Table := { t with maxCodeLen := max t.maxCodeLen (byteLen p.1) }
  match t1.codeToChar.lookup p.1 with
  | some _ => .error (.DuplicatedCode p.1)
  | none =>
    let t2 : Table := { t1 with codeToChar := (p.1, p.2) :: t1.codeToChar }
    match t2.charToCode.lookup p.2 with
    | some _ => .error (.DuplicatedChar p.2)
    | none => .ok { t2 with charToCode := (p.2, p.1) :: t2.charToCode }

/-- The construction loop of `Table::load`, folded over the source list. -/
def buildGo (t : Table) : List (String × String) → Except TableInitError Table
  | [] => .ok t
  | p :: l =>
    match buildStep t p with
    | .error e => .error e
    | .ok t2 => buildGo t2 l

/-- Embeds the one-time construction performed inside `Table::load`,
as a function of the source list (the code runs it on `rawTABLE`). -/
def buildTable (l : List (String × String)) : Except TableInitError Table :=
  buildGo ⟨0, [], []⟩ l

/-- The table that `Table::load` actually builds from `rawTABLE`
(construction succeeds; see `buildTable_raw_ok`). -/
def theTable : Table :=
  match buildTable rawTABLE with
  | .ok t => t
  | .error _ => ⟨0, [], []⟩

theorem buildTable_raw_ok : buildTable rawTABLE = .ok theTable := rfl

/-- Embeds the `OnceLock` cell inside `Table::load`: `none` means the cell
is empty, `some r` that it caches result `r`. -/
def LoadCell : Type := Option (Except TableInitError Table)

/-- One call of `Table::load` (`get_or_init`): returns the call result, the
new cell state, and whether this call ran the construction. -/
def loadStep (cell : LoadCell) : Except TableInitError Table × LoadCell × Bool :=
  match cell with
  | some r => (r, some r, false)
  | none => (buildTable rawTABLE, some (buildTable rawTABLE), true)

/-- A sequence of `n` calls of `Table::load` from a cell state: the list of
results, the final cell state, and how many calls ran the construction. -/
def loadCalls : Nat → LoadCell → List (Except TableInitError Table) × LoadCell × Nat
  | 0, cell => ([], cell, 0)
  | n + 1, cell =>
    match loadStep cell with
    | (r, cell2, ran) =>
      match loadCalls n cell2 with
      | (rs, cellF, k) => (r :: rs, cellF, (if ran then 1 else 0) + k)

/-- Embeds `EncodingError` of `en.rs`. -/
inductive EncodingError where
  | tableInit (e : TableInitError)
  | fmt
  | unmatchedOpen
  | unmatchedClose
  | codeTooBig (code : String)
  | unknownCode (code : String)
deriving DecidableEq, Repr

/-- Embeds `EncoderState` of `en.rs`. -/
inductive EncoderState where
  | default
  | opening
  | closing
deriving DecidableEq, Repr

/-- Embeds `Encoder<W>` of `en.rs` with `W` a `String` sink; the
`&'static Table` reference is passed to the operations explicitly. -/
structure Encoder where
  buf : String
  state : EncoderState
  target : String
deriving DecidableEq, Repr

/-- Embeds `Encoder::push` (`en.rs` lines 66-110): the match arms appear
in source order; the mutated encoder is returned alongside the result
(unchanged on the error arms, which return before any mutation). -/
def Encoder.push (tbl : Table) (e : Encoder) (ch : Char) :
    Except EncodingError Unit × Encoder :=
  match e.state with
  | .default =>
    if ch = '{' then (.ok (), { e with state := .opening })
    else if ch = '}' then (.ok (), { e with state := .closing })
    else (.ok (), { e with target := e.target.push ch })
  | .opening =>
    if e.buf = "" ∧ ch = '{' then
      (.ok (), { e with target := e.target.push ch, state := .default })
    else if ch = '}' then
      match tbl.codeToCharGet e.buf with
      | none => (.error (.unknownCode e.buf), e)
      | some encoded =>
        (.ok (), { e with target := e.target ++ encoded, buf := "",
                          state := .default })
    else if byteLen e.buf + ch.utf8Size > tbl.maxCodeLen then
      (.error (.codeTooBig (e.buf.push ch)), e)
    else (.ok (), { e with buf := e.buf.push ch })
  | .closing =>
    if e.buf = "" ∧ ch = '}' then
      (.ok (), { e with target := e.target.push ch, state := .default })
    else (.error .unmatchedClose, e)

/-- Embeds `Encoder::push_str` (`en.rs` lines 112-120): feed the
characters in order, stopping at the first failure. -/
def Encoder.pushList (tbl : Table) (e : Encoder) :
    List Char → Except EncodingError Unit × Encoder
  | [] => (.ok (), e)
  | c :: cs =>
    match Encoder.push tbl e c with
    | (.ok _, e2) => Encoder.pushList tbl e2 cs
    | (.error err, e2) => (.error err, e2)

/-- Embeds `Encoder::finish` (`en.rs` lines 165-171). -/
def Encoder.finish (e : Encoder) : Except EncodingError Unit :=
  match e.state with
  | .default => .ok ()
  | .opening => .error .unmatchedOpen
  | .closing => .error .unmatchedClose

/-- The initial encoder built by `Encoder::new`: empty buffer, `Default`
state, the given sink. -/
def Encoder.init (target : String) : Encoder := ⟨"", .default, target⟩

/-- Embeds the one-shot `encode` of `lib.rs` (via `encode_to`): load the
table, push every character of the input, then `finish`, returning the
accumulated sink. -/
def encode (input : String) : Except EncodingError String :=
  match buildTable rawTABLE with
  | .error e => .error (.tableInit e)
  | .ok tbl =>
    match Encoder.pushList tbl (Encoder.init "") input.data with
    | (.error err, _) => .error err
    | (.ok _, e2) =>
      match e2.finish with
      | .error err => .error err
      | .ok _ => .ok e2.target

/-- Embeds `DecodingError` of `de.rs`. -/
inductive DecodingError where
  | tableInit (e : TableInitError)
  | fmt
deriving DecidableEq, Repr

/-- Embeds `Decoder::push` (`de.rs` lines 38-47): look the grapheme up in
`char_to_code`, write the code when found, the grapheme itself otherwise;
returns the updated sink. -/
def Decoder.push (tbl : Table) (target : String) (ch : String) : String :=
  match tbl.charToCodeGet ch with
  | some code => target ++ code
  | none => target ++ ch

/-- Embeds `Decoder::push_str` (`de.rs` lines 49-57) as written in the
source: the loop body calls `push_str` itself on each extended grapheme
cluster of the input (it never calls `push`). The input is represented
already segmented into grapheme clusters, and re-segmenting a single
cluster `g` yields `[g]`, which is what the recursive call receives. The
`Nat` argument is the available call depth: `none` means the recursion did
not complete within that depth. -/
def Decoder.pushStrFuel : Nat → List String → Option Unit
  | 0, _ => none
  | _ + 1, [] => some ()
  | n + 1, g :: gs =>
    match Decoder.pushStrFuel n [g] with
    | none => none
    | some _ => Decoder.pushStrFuel (n + 1) gs
termination_by fuel gs => (fuel, gs.length)

/-- Embeds the one-shot `decode` of `lib.rs` (via `decode_to`) under the
call-depth semantics of `Decoder.pushStrFuel`: load the table, run
`push_str` on the segmented input. Since `push_str` never writes to the
sink (it only recurses), a completed run returns the untouched empty
buffer. -/
def decodeFuel (fuel : Nat) (gs : List String) :
    Option (Except DecodingError String) :=
  match buildTable rawTABLE with
  | .error e => some (.error (.tableInit e))
  | .ok _ =>
    match Decoder.pushStrFuel fuel gs with
    | none => none
    | some _ => some (.ok "")

/-- Embeds `TranscriptionError` of `transc.rs`. -/
inductive TranscriptionError where
  | encoding (e : EncodingError)
deriving DecidableEq, Repr

/-- Embeds `TranscriptionType` of `transc.rs`. -/
inductive TranscriptionType where
  | graphemicRaw
  | graphemic
  | morphophonemic
  | phonemic
  | phonetic
deriving DecidableEq, Repr

/-- Helper chaining one `Encoder::push` in the `Except` monad (the `?`
operator of the Rust caller). -/
def pushE (tbl : Table) (e : Encoder) (c : Char) :
    Except EncodingError Encoder :=
  match Encoder.push tbl e c with
  | (.ok _, e2) => .ok e2
  | (.error err, _) => .error err

/-- Helper chaining one `Encoder::push_str` in the `Except` monad. -/
def pushListE (tbl : Table) (e : Encoder) (cs : List Char) :
    Except EncodingError Encoder :=
  match Encoder.pushList tbl e cs with
  | (.ok _, e2) => .ok e2
  | (.error err, _) => .error err

/-- Embeds `TranscFn::call` (`transc.rs` lines 76-118): build an encoder
over a fresh buffer, push `*` unless attested, push the style's opening
convention, encode the input, push the closing convention, `finish`, and
return the buffer. Errors convert to `TranscriptionError::Encoding`. The
`lang` argument is accepted and unused, as in the source. -/
def transcCall (input : String) (lang : Option String)
    (ty : TranscriptionType) (attested : Bool) :
    Except TranscriptionError String :=
  match buildTable rawTABLE with
  | .error e => .error (.encoding (.tableInit e))
  | .ok tbl =>
    let r : Except EncodingError String := do
      let e0 := Encoder.init ""
      let e1 ← if !attested then pushE tbl e0 (Char.ofNat 0x2A) else .ok e0
      let e2 ← match ty with
        | .graphemicRaw => .ok e1
        | .graphemic => pushListE tbl e1 ("\x7b<\x7d").data
        | .morphophonemic => pushListE tbl e1 ("\x7b//\x7d").data
        | .phonemic => pushE tbl e1 (Char.ofNat 47)
        | .phonetic => pushE tbl e1 (Char.ofNat 91)
      let e3 ← pushListE tbl e2 input.data
      let e4 ← match ty with
        | .graphemicRaw => .ok e3
        | .graphemic => pushListE tbl e3 ("\x7b>\x7d").data
        | .morphophonemic => pushListE tbl e3 ("\x7b//\x7d").data
        | .phonemic => pushE tbl e3 (Char.ofNat 47)
        | .phonetic => pushE tbl e3 (Char.ofNat 93)
      let _ ← e4.finish
      .ok e4.target
    match r with
    | .ok out => .ok out
    | .error err => .error (.encoding err)

/-- Freshness of every code of a list with respect to a table state:
used to characterise the construction loop of `Table::load`. -/
def codesFreshIn (t : Table) (l : List (String × String)) : Prop :=
  ∀ p ∈ l, t.codeToChar.lookup p.1 = none

/-- Freshness of every symbol of a list with respect to a table state:
used to characterise the construction loop of `Table::load`. -/
def charsFreshIn (t : Table) (l : List (String × String)) : Prop :=
  ∀ p ∈ l, t.charToCode.lookup p.2 = none

instance {ε α : Type} [DecidableEq ε] [DecidableEq α] : DecidableEq (Except ε α) := fun x y =>
  match x, y with
  | .error u, .error v =>
    if h : u = v then isTrue (congrArg Except.error h)
    else isFalse (fun hh => h (by injection hh))
  | .ok u, .ok v =>
    if h : u = v then isTrue (congrArg Except.ok h)
    else isFalse (fun hh => h (by injection hh))
  | .error _, .ok _ => isFalse (fun hh => Except.noConfusion hh)
  | .ok _, .error _ => isFalse (fun hh => Except.noConfusion hh)

theorem strData_append (a b : String) : (a ++ b).data = a.data ++ b.data := rfl

theorem strData_push (a : String) (c : Char) : (a.push c).data = a.data ++ [c] := rfl

theorem byteLen_push (a : String) (c : Char) :
    byteLen (a.push c) = byteLen a + c.utf8Size := by
  simp [byteLen, strData_push]

theorem lookup_cons_none (a k v : String) (m : List (String × String)) :
    List.lookup a ((k, v) :: m) = none ↔ a ≠ k ∧ List.lookup a m = none := by
  rcases eq_or_ne a k with h | h
  · subst h
    rw [List.lookup]
    simp
  · have hb : (a == k) = false := beq_eq_false_iff_ne.mpr h
    rw [List.lookup, hb]
    simp [h]

/-- The recursive call of `Decoder::push_str` on a single grapheme cluster
never completes, at any call depth: the body re-segments the cluster into
itself and calls `push_str` on it again. -/
theorem pushStrFuel_single_none : ∀ (n : Nat) (g : String),
    Decoder.pushStrFuel n [g] = none := by
  intro n
  induction n with
  | zero => intro g; simp [Decoder.pushStrFuel]
  | succ n ih => intro g; simp [Decoder.pushStrFuel, ih g]

theorem decodeFuel_single_none (n : Nat) (g : String) :
    decodeFuel n [g] = none := by
  simp [decodeFuel, buildTable_raw_ok, pushStrFuel_single_none]

set_option maxRecDepth 8192

/-- C1: the claim says `Decoder::push_str` calls `push` once per extended
grapheme cluster and that `decode`/`decode_to` return for every input. In
the source, the loop body of `push_str` calls `push_str` itself on each
cluster, so on any non-empty input the recursion never completes at any
call depth (while the empty input does return). The claim describes the
intent; the code diverges on every non-empty input. -/
theorem decode_push_str_never_terminates :
    (∀ (n : Nat) (g : String), Decoder.pushStrFuel n [g] = none) ∧
    (∀ n : Nat, decodeFuel n ["a"] = none) ∧
    decodeFuel 1 [] = some (.ok "") :=
  ⟨pushStrFuel_single_none, fun n => decodeFuel_single_none n "a",
    by simp [decodeFuel, buildTable_raw_ok, Decoder.pushStrFuel]⟩

/-- C2: for every pair `(c, s)` of the table, `encode` of the bracketed
code yields exactly `s`; and the grapheme-level `Decoder::push` of `s`
yields exactly `c`; but the one-shot `decode` of the single symbol never
returns, because `Decoder::push_str` recurses on itself instead of calling
`push` (shown at the symbol of the first table pair). -/
theorem table_codes_encode_decode :
    (rawTABLE.all
      (fun p => decide (encode ("\x7b" ++ p.1 ++ "\x7d") = Except.ok p.2)) = true) ∧
    (rawTABLE.all
      (fun p => decide (Decoder.push theTable "" p.2 = p.1)) = true) ∧
    (∀ n : Nat, decodeFuel n ["⟨"] = none) :=
  ⟨rfl, rfl, fun n => decodeFuel_single_none n "⟨"⟩

/-- C6: `"z"` is not a symbol of the table and the grapheme-level
`Decoder::push` passes it through unchanged, but the one-shot `decode`
never returns on it: `Decoder::push_str` recurses on itself instead of
calling `push`, so no call depth completes. -/
theorem decode_unknown_grapheme :
    theTable.charToCodeGet "z" = none ∧
    Decoder.push theTable "" "z" = "z" ∧
    (∀ n : Nat, decodeFuel n ["z"] = none) :=
  ⟨rfl, rfl, fun n => decodeFuel_single_none n "z"⟩

/-- C7: doubled braces encode to single literal braces. -/
theorem encode_escaped_braces :
    encode ("\x7b\x7b") = .ok ("\x7b") ∧ encode ("\x7d\x7d") = .ok ("\x7d") :=
  ⟨rfl, rfl⟩

/-- C5: `finish` fails with `UnmatchedOpen` exactly in state `Opening`,
with `UnmatchedClose` exactly in state `Closing`, and succeeds exactly in
state `Default`; `encode` of an input ending mid-code fails with
`UnmatchedOpen`, and `encode` of a lone closing brace fails with
`UnmatchedClose`. -/
theorem finish_state_errors :
    (∀ e : Encoder,
      (e.finish = .error .unmatchedOpen ↔ e.state = .opening) ∧
      (e.finish = .error .unmatchedClose ↔ e.state = .closing) ∧
      (e.finish = .ok () ↔ e.state = .default)) ∧
    encode ("\x7bab") = .error .unmatchedOpen ∧
    encode ("\x7d") = .error .unmatchedClose := by
  refine ⟨fun e => ?_, rfl, rfl⟩
  obtain ⟨b, st, tg⟩ := e
  cases st <;> simp [Encoder.finish]

/-- C10: for every input, every language tag and both attested flags, the
`Morphophonemic` transcription wrapper fails with `UnknownCode "//"`: it
pushes the code block for the code `//`, which the table does not
contain, before the input is ever encoded. -/
theorem transc_morphophonemic_fails :
    ∀ (input : String) (lang : Option String) (att : Bool),
      transcCall input lang .morphophonemic att =
        .error (.encoding (.unknownCode "//")) := by
  intro input lang att
  cases att <;> rfl

theorem push_default_pass (tbl : Table) (b tg : String) (c : Char)
    (h1 : c ≠ '{') (h2 : c ≠ '}') :
    Encoder.push tbl ⟨b, .default, tg⟩ c = (.ok (), ⟨b, .default, tg.push c⟩) := by
  simp [Encoder.push, h1, h2]

theorem pushList_no_braces (tbl : Table) :
    ∀ (cs : List Char) (b tg : String), (∀ c ∈ cs, c ≠ '{' ∧ c ≠ '}') →
      Encoder.pushList tbl ⟨b, .default, tg⟩ cs =
        (.ok (), ⟨b, .default, tg ++ String.mk cs⟩) := by
  intro cs
  induction cs with
  | nil =>
    intro b tg h
    simp only [Encoder.pushList]
    have : tg ++ String.mk [] = tg := by
      apply String.ext
      simp [strData_append]
    rw [this]
  | cons c cs ih =>
    intro b tg h
    have h1 : c ≠ '{' := (h c (by simp)).1
    have h2 : c ≠ '}' := (h c (by simp)).2
    have hrest : ∀ x ∈ cs, x ≠ '{' ∧ x ≠ '}' := fun x hx => h x (by simp [hx])
    simp only [Encoder.pushList, push_default_pass tbl b tg c h1 h2]
    rw [ih b (tg.push c) hrest]
    have : (tg.push c) ++ String.mk cs = tg ++ String.mk (c :: cs) := by
      apply String.ext
      simp [strData_append, strData_push]
    rw [this]

/-- C3: for every input string containing neither an opening nor a closing
brace, `encode` succeeds and returns the input unchanged. -/
theorem encode_pass_through (s : String)
    (h : ∀ c ∈ s.data, c ≠ '{' ∧ c ≠ '}') : encode s = .ok s := by
  simp only [encode, buildTable_raw_ok, Encoder.init]
  rw [pushList_no_braces theTable s.data "" "" h]
  have : ("" : String) ++ String.mk s.data = s := by
    apply String.ext
    simp [strData_append]
  rw [this]
  rfl

theorem encode_pass_through_witness :
    (∀ c ∈ ("hello" : String).data, c ≠ '{' ∧ c ≠ '}') ∧
    encode ("hello") = .ok ("hello") :=
  ⟨by decide, encode_pass_through ("hello") (by decide)⟩

/-- C4 (amended): in state `Opening`, `push` of a closing brace looks the
buffer up in the table; on success it emits the resolved symbol, clears
the buffer and moves to `Default`; on failure it returns
`UnknownCode(buffer)` and leaves the encoder (buffer and state)
unchanged. -/
theorem push_opening_close (tbl : Table) (e : Encoder) (h : e.state = .opening) :
    (∀ sym, tbl.codeToCharGet e.buf = some sym →
      Encoder.push tbl e '}' = (.ok (), ⟨"", .default, e.target ++ sym⟩)) ∧
    (tbl.codeToCharGet e.buf = none →
      Encoder.push tbl e '}' = (.error (.unknownCode e.buf), e)) := by
  obtain ⟨b, st, tg⟩ := e
  simp only at h
  subst h
  constructor
  · intro sym hsym
    simp [Encoder.push, hsym, show ('}' : Char) ≠ '{' by decide]
  · intro hnone
    simp [Encoder.push, hnone, show ('}' : Char) ≠ '{' by decide]

/-- C4 (counterexample): on the unknown code `qq` the push fails with
`UnknownCode "qq"` but the buffer is NOT cleared and the state is NOT
`Default`, contradicting the claim that both happen in the failure case
too. -/
theorem push_opening_unknown_not_reset :
    (Encoder.push theTable ⟨"qq", .opening, ""⟩ '}').1 =
      .error (.unknownCode "qq") ∧
    ¬ ((Encoder.push theTable ⟨"qq", .opening, ""⟩ '}').2.buf = "" ∧
       (Encoder.push theTable ⟨"qq", .opening, ""⟩ '}').2.state = .default) := by
  decide

theorem push_opening_close_witness :
    Encoder.push theTable ⟨"e", .opening, "x"⟩ '}' =
      (.ok (), ⟨"", .default, ("x" : String) ++ "ɛ"⟩) :=
  (push_opening_close theTable ⟨"e", .opening, "x"⟩ rfl).1 "ɛ" rfl

/-- C8: in state `Opening`, for a character other than a closing brace
(and not the empty-buffer literal-brace escape): when its addition would
exceed `max_code_len` bytes, `push` fails with `CodeTooBig(buffer+char)`
leaving the encoder unchanged; when it fits (exactly or under), the
character is appended; and a buffer within `max_code_len` stays within
`max_code_len` after any push. -/
theorem push_opening_code_len (tbl : Table) (e : Encoder) (c : Char) :
    (e.state = .opening → c ≠ '}' → ¬(e.buf = "" ∧ c = '{') →
      ((byteLen e.buf + c.utf8Size > tbl.maxCodeLen →
         Encoder.push tbl e c = (.error (.codeTooBig (e.buf.push c)), e)) ∧
       (byteLen e.buf + c.utf8Size ≤ tbl.maxCodeLen →
         Encoder.push tbl e c = (.ok (), { e with buf := e.buf.push c })))) ∧
    (byteLen e.buf ≤ tbl.maxCodeLen →
      byteLen (Encoder.push tbl e c).2.buf ≤ tbl.maxCodeLen) := by
  obtain ⟨b, st, tg⟩ := e
  constructor
  · intro hst hc hbrace
    simp only at hst
    subst hst
    constructor
    · intro hgt
      simp [Encoder.push, hbrace, hc, hgt]
    · intro hle
      have hngt : ¬(byteLen b + c.utf8Size > tbl.maxCodeLen) := not_lt.mpr hle
      simp [Encoder.push, hbrace, hc, hngt]
  · intro hb
    cases st
    case default =>
      simp only [Encoder.push]
      split_ifs <;> simpa using hb
    case opening =>
      simp only [Encoder.push]
      split_ifs with hg1 hg2 hg3
      · simpa using hb
      · rcases hlook : tbl.codeToCharGet b with _ | sym
        · simpa [hlook, byteLen] using hb
        · simp [hlook, byteLen]
      · simpa using hb
      · simpa [byteLen_push] using not_lt.mp hg3
    case closing =>
      simp only [Encoder.push]
      split_ifs <;> simpa using hb

theorem push_opening_code_len_witness :
    Encoder.push theTable ⟨"ae", .opening, ""⟩ 'x' =
      (.ok (), ⟨"aex", .opening, ""⟩) ∧
    Encoder.push theTable ⟨"aex", .opening, ""⟩ 'y' =
      (.error (.codeTooBig "aexy"), ⟨"aex", .opening, ""⟩) ∧
    byteLen (Encoder.push theTable ⟨"ae", .opening, ""⟩ 'x').2.buf ≤
      theTable.maxCodeLen :=
  ⟨((push_opening_code_len theTable ⟨"ae", .opening, ""⟩ 'x').1 rfl
      (by decide) (by decide)).2 (by decide),
   ((push_opening_code_len theTable ⟨"aex", .opening, ""⟩ 'y').1 rfl
      (by decide) (by decide)).1 (by decide),
   (push_opening_code_len theTable ⟨"ae", .opening, ""⟩ 'x').2 (by decide)⟩

theorem buildGo_ok_iff : ∀ (l : List (String × String)) (t : Table),
    (∃ t2, buildGo t l = .ok t2) ↔
    ((l.map Prod.fst).Nodup ∧ (l.map Prod.snd).Nodup ∧
      codesFreshIn t l ∧ charsFreshIn t l) := by
  intro l
  induction l with
  | nil =>
    intro t
    simp [buildGo, codesFreshIn, charsFreshIn]
  | cons p l ih =>
    intro t
    rcases hc : t.codeToChar.lookup p.1 with _ | v
    · rcases hh : t.charToCode.lookup p.2 with _ | w
      · have hgo : buildGo t (p :: l) =
            buildGo ⟨max t.maxCodeLen (byteLen p.1),
              (p.1, p.2) :: t.codeToChar, (p.2, p.1) :: t.charToCode⟩ l := by
          simp [buildGo, buildStep, hc, hh]
        rw [hgo, ih]
        constructor
        · rintro ⟨h1, h2, h3, h4⟩
          refine ⟨?_, ?_, ?_, ?_⟩
          · rw [List.map_cons, List.nodup_cons]
            refine ⟨?_, h1⟩
            intro hmem
            rcases List.mem_map.mp hmem with ⟨q, hq, hq1⟩
            exact ((lookup_cons_none q.1 p.1 p.2 t.codeToChar).mp (h3 q hq)).1 hq1
          · rw [List.map_cons, List.nodup_cons]
            refine ⟨?_, h2⟩
            intro hmem
            rcases List.mem_map.mp hmem with ⟨q, hq, hq2⟩
            exact ((lookup_cons_none q.2 p.2 p.1 t.charToCode).mp (h4 q hq)).1 hq2
          · intro q hq
            rcases List.mem_cons.mp hq with hq | hq
            · rw [hq]; exact hc
            · exact ((lookup_cons_none q.1 p.1 p.2 t.codeToChar).mp (h3 q hq)).2
          · intro q hq
            rcases List.mem_cons.mp hq with hq | hq
            · rw [hq]; exact hh
            · exact ((lookup_cons_none q.2 p.2 p.1 t.charToCode).mp (h4 q hq)).2
        · rintro ⟨h1, h2, h3, h4⟩
          rw [List.map_cons, List.nodup_cons] at h1 h2
          refine ⟨h1.2, h2.2, ?_, ?_⟩
          · intro q hq
            refine (lookup_cons_none q.1 p.1 p.2 t.codeToChar).mpr ⟨?_, ?_⟩
            · intro hq1
              exact h1.1 (List.mem_map.mpr ⟨q, hq, hq1⟩)
            · exact h3 q (List.mem_cons_of_mem p hq)
          · intro q hq
            refine (lookup_cons_none q.2 p.2 p.1 t.charToCode).mpr ⟨?_, ?_⟩
            · intro hq2
              exact h2.1 (List.mem_map.mpr ⟨q, hq, hq2⟩)
            · exact h4 q (List.mem_cons_of_mem p hq)
      · have hgo : buildGo t (p :: l) = .error (.DuplicatedChar p.2) := by
          simp [buildGo, buildStep, hc, hh]
        rw [hgo]
        constructor
        · rintro ⟨t2, ht⟩
          simp at ht
        · rintro ⟨h1, h2, h3, h4⟩
          have := h4 p (by simp)
          simp [this] at hh
    · have hgo : buildGo t (p :: l) = .error (.DuplicatedCode p.1) := by
        simp [buildGo, buildStep, hc]
      rw [hgo]
      constructor
      · rintro ⟨t2, ht⟩
        simp at ht
      · rintro ⟨h1, h2, h3, h4⟩
        have := h3 p (by simp)
        simp [this] at hc

theorem buildGo_err_code : ∀ (l : List (String × String)) (t : Table) (c : String),
    buildGo t l = .error (.DuplicatedCode c) →
    ¬ ((l.map Prod.fst).Nodup ∧ codesFreshIn t l) := by
  intro l
  induction l with
  | nil =>
    intro t c h
    simp [buildGo] at h
  | cons p l ih =>
    intro t c h
    rintro ⟨hnd, hf⟩
    rw [List.map_cons, List.nodup_cons] at hnd
    rcases hc : t.codeToChar.lookup p.1 with _ | v
    · rcases hh : t.charToCode.lookup p.2 with _ | w
      · rw [show buildGo t (p :: l) =
            buildGo ⟨max t.maxCodeLen (byteLen p.1),
              (p.1, p.2) :: t.codeToChar, (p.2, p.1) :: t.charToCode⟩ l from
            by simp [buildGo, buildStep, hc, hh]] at h
        refine ih _ c h ⟨hnd.2, ?_⟩
        intro q hq
        refine (lookup_cons_none q.1 p.1 p.2 t.codeToChar).mpr ⟨?_, ?_⟩
        · intro hq1
          exact hnd.1 (List.mem_map.mpr ⟨q, hq, hq1⟩)
        · exact hf q (List.mem_cons_of_mem p hq)
      · rw [show buildGo t (p :: l) = .error (.DuplicatedChar p.2) from
            by simp [buildGo, buildStep, hc, hh]] at h
        simp at h
    · exact absurd (hf p (by simp)) (by simp [hc])

theorem buildGo_err_char : ∀ (l : List (String × String)) (t : Table) (s : String),
    buildGo t l = .error (.DuplicatedChar s) →
    ¬ ((l.map Prod.snd).Nodup ∧ charsFreshIn t l) := by
  intro l
  induction l with
  | nil =>
    intro t s h
    simp [buildGo] at h
  | cons p l ih =>
    intro t s h
    rintro ⟨hnd, hf⟩
    rw [List.map_cons, List.nodup_cons] at hnd
    rcases hc : t.codeToChar.lookup p.1 with _ | v
    · rcases hh : t.charToCode.lookup p.2 with _ | w
      · rw [show buildGo t (p :: l) =
            buildGo ⟨max t.maxCodeLen (byteLen p.1),
              (p.1, p.2) :: t.codeToChar, (p.2, p.1) :: t.charToCode⟩ l from
            by simp [buildGo, buildStep, hc, hh]] at h
        refine ih _ s h ⟨hnd.2, ?_⟩
        intro q hq
        refine (lookup_cons_none q.2 p.2 p.1 t.charToCode).mpr ⟨?_, ?_⟩
        · intro hq2
          exact hnd.1 (List.mem_map.mpr ⟨q, hq, hq2⟩)
        · exact hf q (List.mem_cons_of_mem p hq)
      · exact absurd (hf p (by simp)) (by simp [hh])
    · rw [show buildGo t (p :: l) = .error (.DuplicatedCode p.1) from
          by simp [buildGo, buildStep, hc]] at h
      simp at h

theorem loadCalls_cached : ∀ (n : Nat) (r : Except TableInitError Table),
    ((loadCalls n (some r)).1.all (fun x => decide (x = r)) = true) ∧
    (loadCalls n (some r)).2.2 = 0 := by
  intro n
  induction n with
  | zero => intro r; simp [loadCalls]
  | succ n ih =>
    intro r
    rcases hrec : loadCalls n (some r) with ⟨rs, cf, k⟩
    have hihr := ih r
    rw [hrec] at hihr
    have hk : k = 0 := hihr.2
    have hall : (rs.all fun x => decide (x = r)) = true := hihr.1
    simp only [loadCalls, loadStep, hrec]
    constructor
    · simp [List.all_cons, hall]
    · simpa using hk

theorem lookup_nil (a : String) :
    List.lookup a ([] : List (String × String)) = none := rfl

/-- C9: construction of the table from the actual source list succeeds; in
general, construction succeeds exactly when no code and no symbol repeats
in the source list; a `DuplicatedCode` error implies a repeated code and a
`DuplicatedChar` error a repeated symbol (the two directions are checked
independently); and under the once-cell model of `Table::load`, any
sequence of calls runs the construction exactly once (for at least one
call) and every call returns the same result. -/
theorem table_load_duplicates_and_cache :
    buildTable rawTABLE = .ok theTable ∧
    (∀ l, (∃ t, buildTable l = .ok t) ↔
      ((l.map Prod.fst).Nodup ∧ (l.map Prod.snd).Nodup)) ∧
    (∀ l c, buildTable l = .error (.DuplicatedCode c) →
      ¬ (l.map Prod.fst).Nodup) ∧
    (∀ l s, buildTable l = .error (.DuplicatedChar s) →
      ¬ (l.map Prod.snd).Nodup) ∧
    (∀ n : Nat,
      ((loadCalls n none).1.all
        (fun r => decide (r = buildTable rawTABLE)) = true) ∧
      (loadCalls n none).2.2 = min n 1) := by
  refine ⟨buildTable_raw_ok, ?_, ?_, ?_, ?_⟩
  · intro l
    rw [buildTable, buildGo_ok_iff]
    simp [codesFreshIn, charsFreshIn, lookup_nil]
  · intro l c h hnd
    exact buildGo_err_code l ⟨0, [], []⟩ c h ⟨hnd, fun q _ => rfl⟩
  · intro l s h hnd
    exact buildGo_err_char l ⟨0, [], []⟩ s h ⟨hnd, fun q _ => rfl⟩
  · intro n
    cases n with
    | zero => simp [loadCalls]
    | succ n =>
      rcases hrec : loadCalls n (some (buildTable rawTABLE)) with ⟨rs, cf, k⟩
      have hc := loadCalls_cached n (buildTable rawTABLE)
      rw [hrec] at hc
      have hk : k = 0 := hc.2
      have hall : (rs.all fun x => decide (x = buildTable rawTABLE)) = true := hc.1
      simp only [loadCalls, loadStep, hrec]
      constructor
      · simp [List.all_cons, hall]
      · simp [hk]

theorem table_load_duplicates_witness :
    ¬ ((([("a", "A"), ("a", "B")] : List (String × String)).map Prod.fst).Nodup) ∧
    ¬ ((([("a", "A"), ("b", "A")] : List (String × String)).map Prod.snd).Nodup) :=
  ⟨table_load_duplicates_and_cache.2.2.1 [("a", "A"), ("a", "B")] "a" rfl,
   table_load_duplicates_and_cache.2.2.2.1 [("a", "A"), ("b", "A")] "A" rfl⟩
